
import Mathlib

/-!
Shallow embedding of the sensefreq word-sense-disambiguation core:
context vectors (`utils.context_vector`, `utils.unitvec`), the supervised
classifier family (`supervised.SphericalModel`, `KNearestModel`, `GMMModel`,
`DNNModel`, `SupervisedWrapper`), the evaluation harness
(`supervised.evaluate`, `_get_freqs`, `get_accuracy_estimate`), the
labeled-data parser (`supervised.get_labeled_ctx`) and the weighting-table
builder (`rs/tools/build_weights.write_cdict`).

Machine floats are modelled as real numbers; numpy arrays of a fixed
dimension `n` as functions `Fin n → ℝ`; Python dicts (whose insertion order
the code relies on) as association lists; a Python exception as `none` of an
`Option` result.
-/

namespace Sensefreq

/-- A fixed-dimension numeric vector (a numpy float array of length `n`). -/
abbrev Vec (n : ℕ) := Fin n → ℝ

/-- Dot product of two vectors, `np.dot(v, w)`. -/
noncomputable def dot {n : ℕ} (v w : Vec n) : ℝ := ∑ i, v i * w i

/-- Sum of squared entries, `np.sum(vec ** 2)` in `utils.unitvec`. -/
noncomputable def sumsq {n : ℕ} (v : Vec n) : ℝ := ∑ i, v i ^ 2

/-- Euclidean norm `veclen = np.sqrt(np.sum(vec ** 2))` in `utils.unitvec`. -/
noncomputable def norm2 {n : ℕ} (v : Vec n) : ℝ := Real.sqrt (sumsq v)

/-- `utils.unitvec`: divide by the norm when it is positive, else return the
input unchanged. -/
noncomputable def unitvec {n : ℕ} (v : Vec n) : Vec n :=
  if norm2 v > 0 then fun i => v i / norm2 v else v

/-- Modelled from the spec: `v_closeness` is imported by `supervised.py` from
`utils`, but the `utils.py` in this snapshot does not define it.  The spec
(§4.3, §8) calls it cosine similarity, symmetric in its two arguments:
dot product divided by the product of the norms. -/
noncomputable def v_closeness {n : ℕ} (v w : Vec n) : ℝ :=
  dot v w / (norm2 v * norm2 w)

/-- Pointwise scalar multiple of a vector (`v * weight` on numpy arrays). -/
def smul {n : ℕ} (c : ℝ) (v : Vec n) : Vec n := fun i => c * v i

/-- Pointwise sum of two vectors. -/
def vadd {n : ℕ} (v w : Vec n) : Vec n := fun i => v i + w i

/-- The all-zero vector. -/
def zeroVec (n : ℕ) : Vec n := fun _ => 0

/-- Sum of a list of vectors. -/
def vsum {n : ℕ} (l : List (Vec n)) : Vec n := l.foldr vadd (zeroVec n)

/-- `np.mean(vectors, axis=0)`: pointwise sum divided by the list length. -/
noncomputable def vmean {n : ℕ} (l : List (Vec n)) : Vec n :=
  smul ((l.length : ℝ))⁻¹ (vsum l)

/-- `np.mean` of a list of scalars: sum divided by length. -/
noncomputable def listMean (l : List ℝ) : ℝ := l.sum / l.length

/-- One step of Python `max(..., key=key)`: fold keeping the current best,
replacing it only on a strictly larger key (so the first maximal element of
the iterable wins, as in CPython). -/
def pyfoldMax {α β : Type} [LinearOrder β] (key : α → β) (a : α) : List α → α
  | [] => a
  | y :: ys => pyfoldMax key (if key y > key a then y else a) ys

/-- Python `max(iterable, key=key)`: `none` models the `ValueError` raised on
an empty iterable. -/
def pymax {α β : Type} [LinearOrder β] (key : α → β) : List α → Option α
  | [] => none
  | x :: xs => some (pyfoldMax key x xs)

/-- The descending comparison used to model
`sorted(..., reverse=True)` on floats. -/
def descR (a b : ℝ) : Prop := b ≤ a

noncomputable instance : DecidableRel descR := fun a b =>
  (inferInstance : Decidable (b ≤ a))

instance : IsTotal ℝ descR := ⟨fun a b => (le_total b a).imp id id⟩

instance : IsTrans ℝ descR := ⟨fun _ _ _ h h' => le_trans h' h⟩

instance : IsAntisymm ℝ descR := ⟨fun _ _ h h' => le_antisymm h' h⟩

/-- The descending comparison on `(answer, closeness)` pairs used to model
`sorted(..., key=itemgetter(1), reverse=True)`. -/
def descSnd (a b : String × ℝ) : Prop := b.2 ≤ a.2

noncomputable instance : DecidableRel descSnd := fun a b =>
  (inferInstance : Decidable (b.2 ≤ a.2))

instance : IsTotal (String × ℝ) descSnd := ⟨fun a b => (le_total b.2 a.2).imp id id⟩

instance : IsTrans (String × ℝ) descSnd := ⟨fun _ _ _ h h' => le_trans h' h⟩

/-- Weight lookup in `utils.context_vector`: default `1.`, overridden by the
weighting table when the word is a key (`try/except KeyError`). -/
def lookupWeight (weights : Option (List (String × ℝ))) (w : String) : ℝ :=
  match weights with
  | none => 1
  | some tbl =>
    match tbl.lookup w with
    | some x => x
    | none => 1

/-- The body of the accumulation loop of `utils.context_vector` for one word:
`none` when the word has no embedding or is an excluded stop-word, otherwise
the `(vector, weight)` pair appended to `v_weights`. -/
def cvEntry {n : ℕ} (w2v : String → Option (Vec n)) (stopwords : List String)
    (excl_stopwords : Bool) (weights : Option (List (String × ℝ)))
    (w : String) : Option (Vec n × ℝ) :=
  match w2v w with
  | none => none
  | some v =>
    if excl_stopwords = false ∨ w ∉ stopwords then some (v, lookupWeight weights w)
    else none

/-- `utils.context_vector`: collect `(vector, weight)` pairs for the words,
and if any survive return the `unitvec` of the weighted mean, else `None`. -/
noncomputable def context_vector {n : ℕ} (w2v : String → Option (Vec n))
    (stopwords : List String) (words : List String) (excl_stopwords : Bool)
    (weights : Option (List (String × ℝ))) : Option (Vec n) :=
  let v_weights := words.filterMap (cvEntry w2v stopwords excl_stopwords weights)
  match v_weights with
  | [] => none
  | _ :: _ => some (unitvec (vmean (v_weights.map fun p => smul p.2 p.1)))

/-- Trained state of `supervised.SphericalModel`: per-sense centroid vectors
(`sense_vectors`, an insertion-ordered dict) and the fallback
`dominant_sense`. -/
structure SphericalModel (n : ℕ) where
  sense_vectors : List (String × Vec n)
  dominant_sense : String

/-- The `ans_closeness` list of `SphericalModel.__call__`: closeness of the
query vector to every sense centroid, in dict order. -/
noncomputable def ansCloseness {n : ℕ} (m : SphericalModel n) (v : Vec n) :
    List (String × ℝ) :=
  m.sense_vectors.map fun p => (p.1, v_closeness v p.2)

/-- `SphericalModel.__call__` with `with_confidence=True`.  An undefined
context vector is the `v is None` branch; `none` models the `ValueError` of
`max` when the model has no sense vectors at all. -/
noncomputable def SphericalModel.call {n : ℕ} (m : SphericalModel n)
    (v? : Option (Vec n)) : Option (String × ℝ) :=
  match v? with
  | none => some (m.dominant_sense, 0)
  | some v =>
    match pymax (fun p : String × ℝ => p.2) (ansCloseness m v) with
    | none => none
    | some pr =>
      let closeness := List.insertionSort descR ((ansCloseness m v).map Prod.snd)
      let confidence : ℝ :=
        match closeness with
        | c0 :: c1 :: _ => c0 - c1
        | _ => 1
      some (pr.1, confidence)

/-- Trained state of `supervised.KNearestModel`: all per-sense training
vectors (dict of lists), the fallback sense, and `k_nearest`. -/
structure KNearestModel (n : ℕ) where
  context_vectors : List (String × List (Vec n))
  dominant_sense : String
  k_nearest : ℕ

/-- The generator inside `KNearestModel.__call__`: `(ans, closeness)` for
every training vector of every sense, in dict-then-list order. -/
noncomputable def knnPairs {n : ℕ} (m : KNearestModel n) (v : Vec n) :
    List (String × ℝ) :=
  m.context_vectors.flatMap fun p => p.2.map fun cv => (p.1, v_closeness v cv)

/-- `sorted_answers[:self.k_nearest]`: the training pairs sorted by
closeness descending, truncated to the top `k`. -/
noncomputable def knnTop {n : ℕ} (m : KNearestModel n) (v : Vec n) :
    List (String × ℝ) :=
  (List.insertionSort descSnd (knnPairs m v)).take m.k_nearest

/-- Keys of the `ans_counts` dict in first-appearance order. -/
def dedupFirst : List String → List String
  | [] => []
  | x :: xs => x :: ((dedupFirst xs).filter fun y => y ≠ x)

/-- `ans_counts[ans]`: how many of the top-`k` neighbours carry sense `a`. -/
def ansCount (top : List (String × ℝ)) (a : String) : ℕ :=
  (top.filter fun p => p.1 = a).length

/-- `np.mean(ans_closeness[ans])`: mean closeness of the top-`k` neighbours
carrying sense `a`. -/
noncomputable def ansMean (top : List (String × ℝ)) (a : String) : ℝ :=
  listMean ((top.filter fun p => p.1 = a).map Prod.snd)

/-- `KNearestModel.__call__` with `with_confidence=True`: vote by sense count
among the top `k`, break count ties by the larger mean closeness, return
confidence `1.0`; an undefined vector falls back to the dominant sense with
confidence `0.0`. -/
noncomputable def KNearestModel.call {n : ℕ} (m : KNearestModel n)
    (v? : Option (Vec n)) : Option (String × ℝ) :=
  match v? with
  | none => some (m.dominant_sense, 0)
  | some v =>
    let top := knnTop m v
    match pymax (fun a => ansCount top a) (dedupFirst (top.map Prod.fst)) with
    | none => none
    | some a0 =>
      match pymax (fun a => ansMean top a)
          ((dedupFirst (top.map Prod.fst)).filter
            fun a => ansCount top a = ansCount top a0) with
      | none => none
      | some m_ans => some (m_ans, 1)

/-- Trained state of `supervised.GMMModel`: the sense labels array and the
fitted mixture's predict function (the `sklearn` classifier, abstract). -/
structure GMMModel (n : ℕ) where
  senses : List String
  predict : Vec n → ℕ
  dominant_sense : String

/-- `GMMModel.__call__`: `self.senses[self.classifier.predict(v)[0]]`.  There
is no `v is None` guard: an undefined context vector reaches
`self.classifier.predict(None)`, which fails — modelled as `none`.  The
`with_confidence` keyword is swallowed by `*args`, so no confidence is ever
attached. -/
def GMMModel.call {n : ℕ} (m : GMMModel n) (v? : Option (Vec n)) :
    Option String :=
  match v? with
  | none => none
  | some v => m.senses.get? (m.predict v)

/-- Trained state of `supervised.SupervisedWrapper`: the wrapped clustering
method's predict function and its cluster-to-sense `mapping`. -/
structure SupervisedWrapper (n : ℕ) where
  predict : Vec n → ℕ
  mapping : List (ℕ × ℕ)

/-- `SupervisedWrapper.__call__`: predict a cluster, map it through
`self.model.mapping` (`str(None)` = `"None"` when the cluster is unmapped),
and always pair with confidence `0.0`.  There is no `v is None` guard: an
undefined vector reaches `self.model.predict([None])`, which fails —
modelled as `none`. -/
def SupervisedWrapper.call {n : ℕ} (m : SupervisedWrapper n)
    (v? : Option (Vec n)) : Option (String × ℝ) :=
  match v? with
  | none => none
  | some v =>
    let cluster := m.predict v
    let m_ans :=
      match m.mapping.lookup cluster with
      | some s => toString s
      | none => "None"
    some (m_ans, 0)

/-- Trained state of `supervised.DNNModel`: the sense labels, the ensemble of
fitted networks (each mapping a query vector to its per-sense probability
row, abstract), and the fallback sense. -/
structure DNNModel (n : ℕ) where
  senses : List String
  models : List (Vec n → List ℝ)
  dominant_sense : String

/-- `np.max(probs, axis=0)`: elementwise maximum across the ensemble rows. -/
def elemwiseMax (rows : List (List ℝ)) : List ℝ :=
  match rows with
  | [] => []
  | p :: ps => ps.foldl (fun acc q => List.zipWith max acc q) p

/-- `DNNModel.__call__` with `with_confidence=True`: aggregate ensemble
probabilities by elementwise max, return the arg-max sense and the gap
between the two largest aggregated probabilities; an undefined vector falls
back to the dominant sense with confidence `0.0`. -/
noncomputable def DNNModel.call {n : ℕ} (m : DNNModel n)
    (v? : Option (Vec n)) : Option (String × ℝ) :=
  match v? with
  | none => some (m.dominant_sense, 0)
  | some v =>
    let probs := elemwiseMax (m.models.map fun f => f v)
    match pymax (fun x : ℕ × ℝ => x.2) probs.enum with
    | none => none
    | some im =>
      match m.senses.get? im.1 with
      | none => none
      | some m_ans =>
        let sorted_probs := List.insertionSort descR probs
        let confidence : ℝ :=
          match sorted_probs with
          | c0 :: c1 :: _ => c0 - c1
          | _ => 1
        some (m_ans, confidence)

/-- `supervised._get_freqs` read as a total frequency function: the fraction
of `answers` equal to `s` (the `defaultdict(float)` yields `0.0` for a sense
that never occurs, and no key is ever queried when `answers` is empty). -/
def get_freqs (answers : List String) (s : String) : ℚ :=
  ((answers.filter fun a => a = s).length : ℚ) / (answers.length : ℚ)

/-- `all_senses = sorted(set(model_freqs) | set(freqs))` in
`supervised.evaluate`: the distinct sense ids occurring among true or
predicted labels (first-appearance order; the order does not affect the
maximum taken over it). -/
def allSenses (truth preds : List String) : List String :=
  dedupFirst (truth ++ preds)

/-- `max(abs(freqs[s] - model_freqs[s]) for s in all_senses)` in
`supervised.evaluate`; `none` models the `ValueError` of `max` on an empty
iterable (empty test set). -/
def maxFreqError (truth preds : List String) : Option ℚ :=
  pymax id ((allSenses truth preds).map fun s => |get_freqs truth s - get_freqs preds s|)

/-- `supervised.get_accuracy_estimate`: fraction of confidences above the
threshold; `none` models the `ZeroDivisionError` on an empty list. -/
noncomputable def get_accuracy_estimate (confidences : List ℝ) (threshold : ℝ) :
    Option ℚ :=
  match confidences with
  | [] => none
  | _ :: _ =>
    some (((confidences.filter fun c => threshold < c).length : ℚ) /
      (confidences.length : ℚ))

/-- Modelled from the spec: `jensen_shannon_divergence` is imported by
`supervised.py` from `utils`, but the `utils.py` in this snapshot does not
define it.  The spec (§4.5) prescribes the standard symmetric
mixture-of-KL formulation over the two aligned frequency lists. -/
noncomputable def kl_divergence (p q : List ℝ) : ℝ :=
  (List.zipWith (fun a b => a * Real.log (a / b)) p q).sum

/-- Modelled from the spec: Jensen–Shannon divergence as the mean of the two
KL divergences to the midpoint distribution. -/
noncomputable def jensen_shannon_divergence (p q : List ℝ) : ℝ :=
  (kl_divergence p (List.zipWith (fun a b => (a + b) / 2) p q) +
   kl_divergence q (List.zipWith (fun a b => (a + b) / 2) p q)) / 2

/-- The loop at the top of `supervised.evaluate`: run the model once per test
example collecting `(x, ans, model_ans, confidence)`; a model failure
(uncaught exception) aborts the whole evaluation. -/
def collectResults {α : Type} (model : α → Option (String × ℝ)) :
    List (α × String) → Option (List (α × String × String × ℝ))
  | [] => some []
  | p :: ps =>
    match model p.1 with
    | none => none
    | some r =>
      match collectResults model ps with
      | none => none
      | some rest => some ((p.1, p.2, r.1, r.2) :: rest)

/-- `supervised.evaluate`: returns `(accuracy, max_freq_error, js_div,
estimate, answers)`; `none` models the exceptions thrown on an empty test
set (division by zero, `max` of an empty iterable) or a failing model
call. -/
noncomputable def evaluate {α : Type} (model : α → Option (String × ℝ))
    (confidence_threshold : ℝ) (test_data : List (α × String)) :
    Option (ℚ × ℚ × ℝ × ℚ × List (α × String × String)) :=
  match collectResults model test_data with
  | none => none
  | some results =>
    match get_accuracy_estimate (results.map fun t => t.2.2.2)
        confidence_threshold with
    | none => none
    | some estimate =>
      let answers := results.map fun t => (t.1, t.2.1, t.2.2.1)
      let freqs_src := test_data.map Prod.snd
      let model_src := results.map fun t => t.2.2.1
      match maxFreqError freqs_src model_src with
      | none => none
      | some max_freq_error =>
        match results with
        | [] => none
        | _ :: _ =>
          some (((answers.filter fun t => t.2.1 = t.2.2).length : ℚ) /
                  (answers.length : ℚ),
                max_freq_error,
                jensen_shannon_divergence
                  ((allSenses freqs_src model_src).map
                    fun s => ((get_freqs freqs_src s : ℚ) : ℝ))
                  ((allSenses freqs_src model_src).map
                    fun s => ((get_freqs model_src s : ℚ) : ℝ)),
                estimate, answers)

/-- One line of a labeled-data file, already split at tabs: a header line
(leading tab, so `meaning` then one or two annotator sense ids) or a data
line (`before`, `word`, `after`, then one or two annotator sense ids). -/
inductive Row : Type
  | header (meaning ans : String) (ans2 : Option String)
  | data (before word after ans1 : String) (ans2 : Option String)

/-- Loop state of `supervised.get_labeled_ctx`: the sense dict in insertion
order, the lazily-initialized reserved "other" id, and the accumulated
labeled examples. -/
structure ParseState : Type where
  senses : List (String × String)
  other : Option String
  w_d : List ((String × String × String) × String)

/-- Python dict assignment `senses[ans] = meaning`: replace the value when
the key exists, else append. -/
def upsert (l : List (String × String)) (k v : String) : List (String × String) :=
  if k ∈ l.map Prod.fst then l.map fun p => if p.1 = k then (k, v) else p
  else l ++ [(k, v)]

/-- Python `del senses[other]`: `none` models the `KeyError` when the key is
absent; the dict's keys are unique so deletion filters the one entry out. -/
def delKey (l : List (String × String)) (k : String) :
    Option (List (String × String)) :=
  if k ∈ l.map Prod.fst then some (l.filter fun p => p.1 ≠ k) else none

/-- One iteration of the `get_labeled_ctx` line loop; `none` models the
`AssertionError` on disagreeing header annotators and the `KeyError` of
`del senses[other]`. -/
def parseStep (st : ParseState) (r : Row) : Option ParseState :=
  match r with
  | Row.header meaning ans ans2 =>
    match ans2 with
    | some a2 =>
      if ans = a2 then
        if ans ≠ "0" then some { st with senses := upsert st.senses ans meaning }
        else some st
      else none
    | none =>
      if ans ≠ "0" then some { st with senses := upsert st.senses ans meaning }
      else some st
  | Row.data before word after ans1 ans2 =>
    let init : Option (List (String × String) × String) :=
      match st.other with
      | none =>
        match delKey st.senses (toString st.senses.length) with
        | none => none
        | some senses' => some (senses', toString st.senses.length)
      | some o => some (st.senses, o)
    match init with
    | none => none
    | some (senses', o) =>
      let ansAgreed : Option String :=
        match ans2 with
        | some a2 => if ans1 = a2 then some ans1 else none
        | none => some ans1
      match ansAgreed with
      | none => some { senses := senses', other := some o, w_d := st.w_d }
      | some ans =>
        if ans ≠ "0" ∧ ans ≠ o then
          some { senses := senses', other := some o,
                 w_d := st.w_d ++ [((before, word, after), ans)] }
        else some { senses := senses', other := some o, w_d := st.w_d }

/-- `supervised.get_labeled_ctx` over pre-split rows: fold the line loop and
return `(senses, w_d)`. -/
def get_labeled_ctx (rows : List Row) :
    Option (List (String × String) × List ((String × String × String) × String)) :=
  match rows.foldlM parseStep ⟨[], none, []⟩ with
  | none => none
  | some st => some (st.senses, st.w_d)

/-- The surviving labeled example a data row contributes once the "other"
sense id is `o`: skipped on annotator disagreement and on label `"0"` or
`o`. -/
def keepData (o : String) : Row → Option ((String × String × String) × String)
  | Row.header _ _ _ => none
  | Row.data before word after ans1 ans2 =>
    match (match ans2 with
           | some a2 => if ans1 = a2 then some ans1 else none
           | none => some ans1) with
    | none => none
    | some ans =>
      if ans ≠ "0" ∧ ans ≠ o then some ((before, word, after), ans) else none

/-- `min_count` in `rs/tools/build_weights.write_cdict`. -/
def min_count : ℕ := 4

/-- The deduplicated context lines (the `seen` set in `write_cdict` skips
repeated lines, keeping the first occurrence). -/
def uniqLines (lines : List (List String)) : List (List String) :=
  lines.foldl (fun acc l => if l ∈ acc then acc else acc ++ [l]) []

/-- `counts[w]`: occurrences of `w` across the deduplicated lines. -/
def localCount (lines : List (List String)) (w : String) : ℕ :=
  ((uniqLines lines).flatten.filter fun x => x = w).length

/-- `contexts_count = sum(counts.values())`: total token count of the
deduplicated lines. -/
def tokenCount (lines : List (List String)) : ℕ :=
  (uniqLines lines).flatten.length

/-- The descending-by-local-count comparison of `write_cdict`'s output
sort. -/
def descCnt (a b : String × ℕ × ℕ) : Prop := b.2.1 ≤ a.2.1

instance : DecidableRel descCnt := fun a b =>
  (inferInstance : Decidable (b.2.1 ≤ a.2.1))

instance : IsTotal (String × ℕ × ℕ) descCnt :=
  ⟨fun a b => (le_total b.2.1 a.2.1).imp id id⟩

instance : IsTrans (String × ℕ × ℕ) descCnt := ⟨fun _ _ _ h h' => le_trans h' h⟩

/-- `rs/tools/build_weights.write_cdict` (the non-`analyse` branch): count
words over deduplicated context lines, keep words with local count at least
`min_count` and a known global count, and emit
`weight = max(0, log(count / predicted_count))` per surviving word, sorted
by local count descending. -/
noncomputable def write_cdict (lines : List (List String))
    (global_counts : String → Option ℕ) (total_count : ℕ) :
    List (String × ℝ) :=
  let words := dedupFirst (uniqLines lines).flatten
  let counts := words.filterMap fun w =>
    match global_counts w with
    | some gc => if localCount lines w ≥ min_count then some (w, localCount lines w, gc)
                 else none
    | none => none
  (List.insertionSort descCnt counts).map fun t =>
    let pred_count : ℝ := (t.2.2 : ℝ) * ((tokenCount lines : ℝ) / (total_count : ℝ))
    (t.1, max 0 (Real.log ((t.2.1 : ℝ) / pred_count)))

/-- A concrete trained mixture-density model (one sense, an arbitrary fitted
predictor): only its `__call__` behaviour on an Undefined vector matters. -/
def gmmEx : GMMModel 1 :=
  { senses := ["1"], predict := fun _ => 0, dominant_sense := "1" }

/-- The best-minus-second-best confidence computed from a similarity list by
`SphericalModel.__call__` and `DNNModel.__call__` (`1.0` with fewer than two
entries). -/
noncomputable def confGap (L : List ℝ) : ℝ :=
  match List.insertionSort descR L with
  | c0 :: c1 :: _ => c0 - c1
  | _ => 1

/-- The constant-one vector in dimension 1 (a concrete unit vector). -/
def vone : Vec 1 := fun _ => 1

/-- The constant-minus-one vector in dimension 1. -/
def vnegone : Vec 1 := fun _ => -1

/-- A concrete trained spherical model with a single sense centroid. -/
noncomputable def sphericalOneSense : SphericalModel 1 :=
  { sense_vectors := [("1", vone)], dominant_sense := "1" }

/-- A concrete trained spherical model with two opposite sense centroids. -/
noncomputable def sphericalTwoSense : SphericalModel 1 :=
  { sense_vectors := [("1", vone), ("2", vnegone)], dominant_sense := "1" }

/-- A concrete trained k-nearest-neighbor model with a single sense. -/
noncomputable def knnEx : KNearestModel 1 :=
  { context_vectors := [("1", [vone])], dominant_sense := "1", k_nearest := 3 }

/-- A concrete cluster wrapper with an empty cluster-to-sense mapping. -/
def wrapEx : SupervisedWrapper 1 :=
  { predict := fun _ => 0, mapping := [] }

/-- A concrete trained ensemble model with one member and one sense. -/
def dnnEx : DNNModel 1 :=
  { senses := ["1"], models := [fun _ => [1]], dominant_sense := "1" }

/-- A concrete embedding provider knowing the single word `"a"`. -/
def w2vA : String → Option (Vec 1) := fun w => if w = "a" then some vone else none

/-- The constant-one vector in dimension 2. -/
def vone2 : Vec 2 := fun _ => 1

/-- A concrete embedding provider knowing the single word `"b"`. -/
def w2vB : String → Option (Vec 2) := fun w => if w = "b" then some vone2 else none

/-- True labels of the spec's concrete frequency-error scenario: a test set
of size 10 with distribution `{1: 0.6, 2: 0.4}`. -/
def scenarioTruth : List String :=
  ["1", "1", "1", "1", "1", "1", "2", "2", "2", "2"]

/-- Predicted labels of the spec's concrete frequency-error scenario:
distribution `{1: 0.5, 2: 0.5}`. -/
def scenarioPreds : List String :=
  ["1", "1", "1", "1", "1", "2", "2", "2", "2", "2"]

/-- A concrete always-confident model over integer stand-in contexts. -/
def evalModelEx : ℕ → Option (String × ℝ) := fun _ => some ("1", 1)

/-- A concrete one-example test set. -/
def evalTestEx : List (ℕ × String) := [(0, "1")]

/-- A concrete model for the evaluation-harness witness. -/
def evalModel9 : ℕ → Option (String × ℝ) := fun _ => some ("2", 1)

/-- A concrete two-example test set. -/
def evalTest9 : List (ℕ × String) := [(0, "2"), (1, "1")]

/-- A concrete corpus of context lines for the weighting-table witness. -/
def linesEx : List (List String) := [["a", "a", "a", "a"]]

/-- A concrete global-count provider knowing the single word `"a"`. -/
def gcsEx : String → Option ℕ := fun w => if w = "a" then some 4 else none

/-- Whether a parsed line is a data row (does not start with a tab). -/
def isDataRow : Row → Bool
  | Row.data _ _ _ _ _ => true
  | Row.header _ _ _ => false

/-- The header rows defining senses `"1" .. "n"` with given meaning texts,
as produced by lines starting with a tab. -/
def headerRows (n : ℕ) (meanings : ℕ → String) : List Row :=
  (List.range n).map fun i => Row.header (meanings (i + 1)) (toString (i + 1)) none

/-- Concrete meaning texts for the parser witness. -/
def meaningsEx : ℕ → String := fun i => "m" ++ toString i

/-- Concrete data rows for the parser witness: one kept row (sense `"1"`),
one row labeled with the reserved "other" sense `"2"`, one undefined row
(sense `"0"`), and one row with disagreeing annotators. -/
def dsEx : List Row :=
  [Row.data "b1" "w" "a1" "1" none,
   Row.data "b2" "w" "a2" "2" none,
   Row.data "b3" "w" "a3" "0" none,
   Row.data "b4" "w" "a4" "1" (some "2")]

theorem pyfoldMax_mem {α β : Type} [LinearOrder β] (key : α → β) :
    ∀ (l : List α) (a : α), pyfoldMax key a l = a ∨ pyfoldMax key a l ∈ l := by
  intro l
  induction l with
  | nil => intro a; exact Or.inl rfl
  | cons y ys ih =>
    intro a
    simp only [pyfoldMax]
    rcases ih (if key y > key a then y else a) with h' | h'
    · by_cases h : key y > key a
      · right
        rw [if_pos h] at h' ⊢
        rw [h']
        exact List.mem_cons_self y ys
      · left
        rw [if_neg h] at h' ⊢
        exact h'
    · right
      exact List.mem_cons_of_mem _ h'

theorem le_key_pyfoldMax {α β : Type} [LinearOrder β] (key : α → β) :
    ∀ (l : List α) (a : α), key a ≤ key (pyfoldMax key a l) := by
  intro l
  induction l with
  | nil => intro a; exact le_refl _
  | cons y ys ih =>
    intro a
    by_cases h : key y > key a
    · calc key a ≤ key y := le_of_lt h
        _ ≤ key (pyfoldMax key (if key y > key a then y else a) ys) := by
            rw [if_pos h]; exact ih y
    · simpa [pyfoldMax, if_neg h] using ih a

theorem key_le_pyfoldMax_of_mem {α β : Type} [LinearOrder β] (key : α → β) :
    ∀ (l : List α) (a : α), ∀ y ∈ l, key y ≤ key (pyfoldMax key a l) := by
  intro l
  induction l with
  | nil => intro a y hy; cases hy
  | cons z zs ih =>
    intro a y hy
    rcases List.mem_cons.1 hy with rfl | hy'
    · by_cases h : key y > key a
      · calc key y ≤ key (pyfoldMax key y zs) := le_key_pyfoldMax key zs y
          _ = key (pyfoldMax key (if key y > key a then y else a) zs) := by
              rw [if_pos h]
      · have : key y ≤ key a := not_lt.1 h
        calc key y ≤ key a := this
          _ ≤ key (pyfoldMax key a zs) := le_key_pyfoldMax key zs a
          _ = key (pyfoldMax key (if key y > key a then y else a) zs) := by
              rw [if_neg h]
    · exact ih _ y hy'

theorem pymax_mem {α β : Type} [LinearOrder β] (key : α → β) (l : List α)
    (x : α) (h : pymax key l = some x) : x ∈ l := by
  cases l with
  | nil => simp [pymax] at h
  | cons a as =>
    simp only [pymax, Option.some.injEq] at h
    rcases pyfoldMax_mem key as a with h' | h'
    · rw [← h, h']; exact List.mem_cons_self a as
    · rw [← h]; exact List.mem_cons_of_mem _ h'

theorem pymax_is_max {α β : Type} [LinearOrder β] (key : α → β) (l : List α)
    (x : α) (h : pymax key l = some x) : ∀ y ∈ l, key y ≤ key x := by
  cases l with
  | nil => simp [pymax] at h
  | cons a as =>
    simp only [pymax, Option.some.injEq] at h
    intro y hy
    rcases List.mem_cons.1 hy with rfl | hy'
    · rw [← h]; exact le_key_pyfoldMax key as y
    · rw [← h]; exact key_le_pyfoldMax_of_mem key as a y hy'

theorem pymax_eq_none_iff {α β : Type} [LinearOrder β] (key : α → β)
    (l : List α) : pymax key l = none ↔ l = [] := by
  cases l <;> simp [pymax]

theorem pymax_isSome {α β : Type} [LinearOrder β] (key : α → β) (l : List α)
    (h : l ≠ []) : ∃ x, pymax key l = some x := by
  cases l with
  | nil => exact absurd rfl h
  | cons a as => exact ⟨_, rfl⟩

theorem sumsq_nonneg {n : ℕ} (v : Vec n) : 0 ≤ sumsq v :=
  Finset.sum_nonneg fun _ _ => sq_nonneg _

theorem norm2_nonneg {n : ℕ} (v : Vec n) : 0 ≤ norm2 v := Real.sqrt_nonneg _

theorem norm2_eq_zero_of_not_pos {n : ℕ} (v : Vec n) (h : ¬ norm2 v > 0) :
    norm2 v = 0 :=
  le_antisymm (not_lt.1 h) (norm2_nonneg v)

theorem sumsq_eq_zero_of_norm2_eq_zero {n : ℕ} (v : Vec n)
    (h : norm2 v = 0) : sumsq v = 0 := by
  have h' : sumsq v ≤ 0 := Real.sqrt_eq_zero'.1 h
  exact le_antisymm h' (sumsq_nonneg v)

theorem entries_eq_zero_of_sumsq_eq_zero {n : ℕ} (v : Vec n)
    (h : sumsq v = 0) : ∀ i, v i = 0 := by
  intro i
  have h' : ∀ j ∈ Finset.univ, (0 : ℝ) ≤ v j ^ 2 := fun j _ => sq_nonneg _
  have := (Finset.sum_eq_zero_iff_of_nonneg h').1 h i (Finset.mem_univ i)
  exact pow_eq_zero_iff (n := 2) (by norm_num) |>.1 this

/-- When the norm is positive, dividing every entry by it produces a vector
of norm exactly 1. -/
theorem norm2_unitvec_of_pos {n : ℕ} (v : Vec n) (h : norm2 v > 0) :
    norm2 (unitvec v) = 1 := by
  have hs : sumsq v > 0 := by
    by_contra hc
    have h0 : norm2 v = 0 := by
      have : sumsq v = 0 := le_antisymm (not_lt.1 hc) (sumsq_nonneg v)
      simp [norm2, this]
    rw [h0] at h
    exact lt_irrefl 0 h
  have hu : unitvec v = fun i => v i / norm2 v := if_pos h
  have hsq : sumsq (unitvec v) = 1 := by
    rw [hu]
    unfold sumsq
    have : ∀ i : Fin n, (v i / norm2 v) ^ 2 = v i ^ 2 / sumsq v := by
      intro i
      rw [div_pow]
      congr 1
      rw [norm2, Real.sq_sqrt (sumsq_nonneg v)]
    simp only [this]
    rw [← Finset.sum_div]
    exact div_self (ne_of_gt hs)
  rw [norm2, hsq, Real.sqrt_one]

/-- Cauchy–Schwarz: the dot product is bounded by the product of norms. -/
theorem abs_dot_le {n : ℕ} (v w : Vec n) : |dot v w| ≤ norm2 v * norm2 w := by
  rw [abs_le]
  constructor
  · have h := Real.sum_mul_le_sqrt_mul_sqrt Finset.univ (fun i => v i) (fun i => - w i)
    have hsq : ∀ i : Fin n, (- w i) ^ 2 = w i ^ 2 := fun i => neg_sq (w i)
    simp only [hsq] at h
    have hdot : ∑ i, v i * (- w i) = - dot v w := by
      unfold dot; rw [← Finset.sum_neg_distrib]; congr 1; funext i; ring
    rw [hdot] at h
    have : - dot v w ≤ norm2 v * norm2 w := by
      unfold norm2 sumsq
      exact h
    linarith
  · have h := Real.sum_mul_le_sqrt_mul_sqrt Finset.univ (fun i => v i) (fun i => w i)
    unfold dot norm2 sumsq
    exact h

/-- Cosine similarity always lies in `[-1, 1]` (with the division-by-zero
convention, a degenerate pair yields `0`). -/
theorem v_closeness_mem {n : ℕ} (v w : Vec n) :
    -1 ≤ v_closeness v w ∧ v_closeness v w ≤ 1 := by
  unfold v_closeness
  rcases eq_or_lt_of_le (mul_nonneg (norm2_nonneg v) (norm2_nonneg w)) with h | h
  · rw [← h, div_zero]
    norm_num
  · have habs : |dot v w / (norm2 v * norm2 w)| ≤ 1 := by
      rw [abs_div, abs_of_pos h]
      exact div_le_one_of_le₀ (abs_dot_le v w) (le_of_lt h)
    exact abs_le.1 habs

theorem mem_dedupFirst : ∀ (l : List String) (a : String), a ∈ dedupFirst l ↔ a ∈ l := by
  intro l
  induction l with
  | nil => intro a; simp [dedupFirst]
  | cons x xs ih =>
    intro a
    rw [dedupFirst]
    constructor
    · intro h
      rcases List.mem_cons.1 h with rfl | h'
      · exact List.mem_cons_self _ _
      · have := (List.mem_filter.1 h').1
        exact List.mem_cons_of_mem _ ((ih a).1 this)
    · intro h
      rcases List.mem_cons.1 h with rfl | h'
      · exact List.mem_cons_self _ _
      · by_cases hxa : a = x
        · rw [hxa]; exact List.mem_cons_self _ _
        · refine List.mem_cons_of_mem _ ?_
          exact List.mem_filter.2 ⟨(ih a).2 h', by simp [hxa]⟩

theorem dedupFirst_eq_nil_iff (l : List String) : dedupFirst l = [] ↔ l = [] := by
  cases l with
  | nil => simp [dedupFirst]
  | cons x xs => rw [dedupFirst]; simp

/-- C1 (amended): of the five classifier strategies, the spherical-centroid,
k-nearest-neighbor and discriminative-ensemble models handle an Undefined
context vector by returning the dominant sense with confidence 0.0, while
the mixture-density model and the cluster wrapper have no such guard: their
calls fail on an Undefined vector instead of returning any sense. -/
theorem C1_undefined_fallback :
    (∀ (n : ℕ) (m : SphericalModel n),
      m.call none = some (m.dominant_sense, 0)) ∧
    (∀ (n : ℕ) (m : KNearestModel n),
      m.call none = some (m.dominant_sense, 0)) ∧
    (∀ (n : ℕ) (m : DNNModel n),
      m.call none = some (m.dominant_sense, 0)) ∧
    (∀ (n : ℕ) (m : GMMModel n), m.call none = none) ∧
    (∀ (n : ℕ) (m : SupervisedWrapper n), m.call none = none) :=
  ⟨fun _ _ => rfl, fun _ _ => rfl, fun _ _ => rfl, fun _ _ => rfl, fun _ _ => rfl⟩

/-- C1 counterexample: the mixture-density strategy applied to a context
whose vector is Undefined does not return the inventory's dominant sense —
the call fails (`self.classifier.predict(None)`), contradicting the claim
that every strategy in the family falls back to the dominant sense. -/
theorem C1_counterexample :
    GMMModel.call gmmEx none = none ∧
    GMMModel.call gmmEx none ≠ some gmmEx.dominant_sense :=
  ⟨rfl, by simp [GMMModel.call]⟩

/-- C2 (amended): on a defined query vector the spherical model returns the
sense whose centroid has maximal cosine similarity to the query; the
returned confidence equals the first minus the second entry of the
descending-sorted similarity list (best minus second best); and with fewer
than two sense centroids the confidence is 1.0 (not 0 as claimed). -/
theorem C2_spherical_classification {n : ℕ} (m : SphericalModel n) (v : Vec n)
    (ans : String) (conf : ℝ)
    (h : m.call (some v) = some (ans, conf)) :
    (∃ sv : Vec n, (ans, sv) ∈ m.sense_vectors ∧
      ∀ p ∈ m.sense_vectors, v_closeness v p.2 ≤ v_closeness v sv) ∧
    (∀ l : List ℝ, l.Perm ((ansCloseness m v).map Prod.snd) → l.Sorted descR →
      ∀ c0 c1 rest, l = c0 :: c1 :: rest → conf = c0 - c1) ∧
    (m.sense_vectors.length = 1 → conf = 1) := by
  cases hp : pymax (fun p : String × ℝ => p.2) (ansCloseness m v) with
  | none => simp [SphericalModel.call, hp] at h
  | some pr =>
    simp only [SphericalModel.call, hp, Option.some.injEq, Prod.mk.injEq] at h
    obtain ⟨hans, hconf⟩ := h
    have hmem := pymax_mem _ _ _ hp
    have hmax := pymax_is_max _ _ _ hp
    refine ⟨?_, ?_, ?_⟩
    · unfold ansCloseness at hmem
      obtain ⟨q, hq, hqe⟩ := List.mem_map.1 hmem
      refine ⟨q.2, ?_, ?_⟩
      · have : ans = q.1 := by rw [← hans, ← hqe]
        rw [this]
        simpa using hq
      · intro p hp'
        have h1 : v_closeness v p.2 ≤ pr.2 := by
          have : (p.1, v_closeness v p.2) ∈ ansCloseness m v := by
            unfold ansCloseness
            exact List.mem_map.2 ⟨p, hp', rfl⟩
          exact hmax _ this
        have h2 : pr.2 = v_closeness v q.2 := by rw [← hqe]
        rw [← h2]
        exact h1
    · intro l hperm hsort c0 c1 rest hl
      have hps := List.perm_insertionSort descR ((ansCloseness m v).map Prod.snd)
      have hss := List.sorted_insertionSort descR ((ansCloseness m v).map Prod.snd)
      have : l = List.insertionSort descR ((ansCloseness m v).map Prod.snd) :=
        List.eq_of_perm_of_sorted (hperm.trans hps.symm) hsort hss
      rw [hl] at this
      rw [← hconf, ← this]
    · intro hlen
      have hlen1 : ((ansCloseness m v).map Prod.snd).length = 1 := by
        unfold ansCloseness
        simp [hlen]
      have hlen2 : (List.insertionSort descR ((ansCloseness m v).map Prod.snd)).length = 1 := by
        rw [(List.perm_insertionSort descR _).length_eq, hlen1]
      rw [← hconf]
      cases hs : List.insertionSort descR ((ansCloseness m v).map Prod.snd) with
      | nil => rw [hs] at hlen2
      | cons a as =>
        cases as with
        | nil => rfl
        | cons b bs => rw [hs] at hlen2; simp at hlen2

theorem confGap_bounds (L : List ℝ) (lo hi : ℝ)
    (hb : ∀ x ∈ L, lo ≤ x ∧ x ≤ hi) (h1 : (1 : ℝ) ≤ hi - lo) :
    0 ≤ confGap L ∧ confGap L ≤ hi - lo := by
  have hss := List.sorted_insertionSort descR L
  have hperm := List.perm_insertionSort descR L
  cases hs : List.insertionSort descR L with
  | nil => simp only [confGap, hs]; constructor <;> linarith
  | cons c0 tl =>
    cases tl with
    | nil => simp only [confGap, hs]; constructor <;> linarith
    | cons c1 rest =>
      simp only [confGap, hs]
      rw [hs] at hss hperm
      have hrel : descR c0 c1 := by
        have := (List.sorted_cons.1 hss).1
        exact this c1 (List.mem_cons_self _ _)
      have hc0 : c0 ∈ L := hperm.mem_iff.1 (List.mem_cons_self _ _)
      have hc1 : c1 ∈ L := hperm.mem_iff.1
        (List.mem_cons_of_mem _ (List.mem_cons_self _ _))
      have b0 := hb c0 hc0
      have b1 := hb c1 hc1
      unfold descR at hrel
      constructor <;> linarith [b0.1, b0.2, b1.1, b1.2]

theorem zipWith_max_bounds (P : ℝ → Prop) :
    ∀ l1 l2 : List ℝ, (∀ x ∈ l1, P x) → (∀ x ∈ l2, P x) →
      ∀ x ∈ List.zipWith max l1 l2, P x := by
  intro l1
  induction l1 with
  | nil => intro l2 _ _ x hx; simp at hx
  | cons a as ih =>
    intro l2 h1 h2 x hx
    cases l2 with
    | nil => simp at hx
    | cons b bs =>
      simp only [List.zipWith] at hx
      rcases List.mem_cons.1 hx with rfl | hx'
      · rcases max_choice a b with hm | hm
        · rw [hm]; exact h1 a (List.mem_cons_self _ _)
        · rw [hm]; exact h2 b (List.mem_cons_self _ _)
      · exact ih bs (fun y hy => h1 y (List.mem_cons_of_mem _ hy))
          (fun y hy => h2 y (List.mem_cons_of_mem _ hy)) x hx'

theorem foldl_zipWith_max_bounds (P : ℝ → Prop) :
    ∀ (ps : List (List ℝ)) (acc : List ℝ), (∀ x ∈ acc, P x) →
      (∀ r ∈ ps, ∀ x ∈ r, P x) →
      ∀ x ∈ ps.foldl (fun acc q => List.zipWith max acc q) acc, P x := by
  intro ps
  induction ps with
  | nil => intro acc hacc _ x hx; exact hacc x hx
  | cons q qs ih =>
    intro acc hacc hrows x hx
    simp only [List.foldl] at hx
    refine ih (List.zipWith max acc q) ?_ ?_ x hx
    · exact zipWith_max_bounds P acc q hacc
        (hrows q (List.mem_cons_self _ _))
    · exact fun r hr => hrows r (List.mem_cons_of_mem _ hr)

theorem elemwiseMax_bounds (P : ℝ → Prop) (rows : List (List ℝ))
    (h : ∀ r ∈ rows, ∀ x ∈ r, P x) : ∀ x ∈ elemwiseMax rows, P x := by
  cases rows with
  | nil => intro x hx; simp [elemwiseMax] at hx
  | cons p ps =>
    intro x hx
    exact foldl_zipWith_max_bounds P ps p (h p (List.mem_cons_self _ _))
      (fun r hr => h r (List.mem_cons_of_mem _ hr)) x hx

/-- C3 (amended): the confidence returned beside the predicted sense is: for
the spherical model in `[0, 2]` (the gap of two cosine similarities, so it
can exceed 1); for the k-nearest-neighbor model in `[0, 1]` (it is 0 or 1);
for the cluster wrapper exactly 0; for the ensemble model in `[0, 1]`
whenever each ensemble member outputs probabilities in `[0, 1]`, and 0 on
the Undefined fallback. -/
theorem C3_confidence_ranges :
    (∀ (n : ℕ) (m : SphericalModel n) (v? : Option (Vec n)) (a : String) (c : ℝ),
      m.call v? = some (a, c) → 0 ≤ c ∧ c ≤ 2) ∧
    (∀ (n : ℕ) (m : KNearestModel n) (v? : Option (Vec n)) (a : String) (c : ℝ),
      m.call v? = some (a, c) → 0 ≤ c ∧ c ≤ 1) ∧
    (∀ (n : ℕ) (m : SupervisedWrapper n) (v? : Option (Vec n)) (a : String) (c : ℝ),
      m.call v? = some (a, c) → c = 0) ∧
    (∀ (n : ℕ) (m : DNNModel n) (a : String) (c : ℝ),
      m.call none = some (a, c) → c = 0) ∧
    (∀ (n : ℕ) (m : DNNModel n) (v : Vec n) (a : String) (c : ℝ),
      (∀ f ∈ m.models, ∀ x ∈ f v, 0 ≤ x ∧ x ≤ 1) →
      m.call (some v) = some (a, c) → 0 ≤ c ∧ c ≤ 1) := by
  refine ⟨?_, ?_, ?_, ?_, ?_⟩
  · intro n m v? a c h
    cases v? with
    | none =>
      simp only [SphericalModel.call, Option.some.injEq, Prod.mk.injEq] at h
      rw [← h.2]
      norm_num
    | some v =>
      cases hp : pymax (fun p : String × ℝ => p.2) (ansCloseness m v) with
      | none => simp [SphericalModel.call, hp] at h
      | some pr =>
        simp only [SphericalModel.call, hp, Option.some.injEq, Prod.mk.injEq] at h
        have hgap : confGap ((ansCloseness m v).map Prod.snd) = c := h.2
        have hb : ∀ x ∈ (ansCloseness m v).map Prod.snd, -1 ≤ x ∧ x ≤ 1 := by
          intro x hx
          obtain ⟨q, hq, hqe⟩ := List.mem_map.1 hx
          unfold ansCloseness at hq
          obtain ⟨p, hp', hpe⟩ := List.mem_map.1 hq
          have hx2 : x = v_closeness v p.2 := by
            rw [← hqe, ← hpe]
          rw [hx2]
          exact v_closeness_mem v p.2
        have hcb := confGap_bounds _ (-1) 1 hb (by norm_num)
        rw [hgap] at hcb
        refine ⟨hcb.1, ?_⟩
        have h2 : (1 : ℝ) - (-1) = 2 := by norm_num
        rw [h2] at hcb
        exact hcb.2
  · intro n m v? a c h
    cases v? with
    | none =>
      simp only [KNearestModel.call, Option.some.injEq, Prod.mk.injEq] at h
      rw [← h.2]
      norm_num
    | some v =>
      cases hp1 : pymax (fun s => ansCount (knnTop m v) s)
          (dedupFirst ((knnTop m v).map Prod.fst)) with
      | none => simp [KNearestModel.call, hp1] at h
      | some a0 =>
        cases hp2 : pymax (fun s => ansMean (knnTop m v) s)
            ((dedupFirst ((knnTop m v).map Prod.fst)).filter
              fun s => ansCount (knnTop m v) s = ansCount (knnTop m v) a0) with
        | none => simp [KNearestModel.call, hp1, hp2] at h
        | some m' =>
          simp only [KNearestModel.call, hp1, hp2, Option.some.injEq,
            Prod.mk.injEq] at h
          rw [← h.2]
          norm_num
  · intro n m v? a c h
    cases v? with
    | none => simp [SupervisedWrapper.call] at h
    | some v =>
      simp only [SupervisedWrapper.call, Option.some.injEq, Prod.mk.injEq] at h
      exact h.2.symm
  · intro n m a c h
    simp only [DNNModel.call, Option.some.injEq, Prod.mk.injEq] at h
    exact h.2.symm
  · intro n m v a c hbnd h
    cases hp1 : pymax (fun x : ℕ × ℝ => x.2)
        (elemwiseMax (m.models.map fun f => f v)).enum with
    | none => simp [DNNModel.call, hp1] at h
    | some im =>
      cases hg : m.senses[im.1]? with
      | none => simp [DNNModel.call, hp1, hg] at h
      | some m_ans =>
        simp only [DNNModel.call, List.get?_eq_getElem?, hp1, hg,
          Option.some.injEq, Prod.mk.injEq] at h
        have hgap : confGap (elemwiseMax (m.models.map fun f => f v)) = c := h.2
        have hb : ∀ x ∈ elemwiseMax (m.models.map fun f => f v),
            0 ≤ x ∧ x ≤ 1 := by
          refine elemwiseMax_bounds _ _ ?_
          intro r hr x hx
          obtain ⟨f, hf, hfe⟩ := List.mem_map.1 hr
          rw [← hfe] at hx
          exact hbnd f hf x hx
        have hcb := confGap_bounds _ 0 1 hb (by norm_num)
        rw [hgap] at hcb
        simpa using hcb

theorem sphericalOneSense_call :
    sphericalOneSense.call (some vone) = some ("1", 1) := by
  simp [SphericalModel.call, sphericalOneSense, ansCloseness, pymax, pyfoldMax,
    List.insertionSort, List.orderedInsert]

/-- C2 counterexample: a spherical model trained with a single sense centroid
classifies a defined query with confidence 1.0, not 0 as the claim states. -/
theorem C2_counterexample :
    sphericalOneSense.call (some vone) = some ("1", 1) ∧
    sphericalOneSense.sense_vectors.length = 1 ∧ (1 : ℝ) ≠ 0 :=
  ⟨sphericalOneSense_call, rfl, one_ne_zero⟩

/-- C2 witness: the amended theorem applied to the concrete one-sense model
and a concrete defined query vector. -/
theorem C2_witness :
    (∃ sv : Vec 1, ("1", sv) ∈ sphericalOneSense.sense_vectors ∧
      ∀ p ∈ sphericalOneSense.sense_vectors,
        v_closeness vone p.2 ≤ v_closeness vone sv) ∧
    (sphericalOneSense.sense_vectors.length = 1 → (1 : ℝ) = 1) := by
  have h := C2_spherical_classification sphericalOneSense vone "1" 1
    sphericalOneSense_call
  exact ⟨h.1, h.2.2⟩

theorem sumsq_vone : sumsq vone = 1 := by
  rw [sumsq]
  simp [vone]

theorem norm2_vone : norm2 vone = 1 := by
  rw [norm2, sumsq_vone, Real.sqrt_one]

theorem sumsq_vnegone : sumsq vnegone = 1 := by
  rw [sumsq]
  simp [vnegone]

theorem norm2_vnegone : norm2 vnegone = 1 := by
  rw [norm2, sumsq_vnegone, Real.sqrt_one]

theorem vclose_vone_vone : v_closeness vone vone = 1 := by
  rw [v_closeness, norm2_vone]
  rw [show dot vone vone = 1 by rw [dot]; simp [vone]]
  norm_num

theorem vclose_vone_vnegone : v_closeness vone vnegone = -1 := by
  rw [v_closeness, norm2_vone, norm2_vnegone]
  rw [show dot vone vnegone = -1 by rw [dot]; simp [vone, vnegone]]
  norm_num

theorem sphericalTwoSense_call :
    sphericalTwoSense.call (some vone) = some ("1", 2) := by
  norm_num [SphericalModel.call, sphericalTwoSense, ansCloseness,
    vclose_vone_vone, vclose_vone_vnegone, pymax, pyfoldMax,
    List.insertionSort, List.orderedInsert, descR]

/-- C3 counterexample: a spherical model whose two sense centroids lie in
opposite directions returns confidence 2 on a defined query, so the
confidence returned by a classifier does not always lie in `[0, 1]`. -/
theorem C3_counterexample :
    sphericalTwoSense.call (some vone) = some ("1", 2) ∧ ¬ ((2 : ℝ) ≤ 1) :=
  ⟨sphericalTwoSense_call, by norm_num⟩

theorem dnnEx_call : dnnEx.call (some vone) = some ("1", 1) := by
  norm_num [DNNModel.call, dnnEx, elemwiseMax, pymax, pyfoldMax,
    List.insertionSort, List.orderedInsert, descR, List.enum]

/-- C3 witness: the amended confidence-range theorem applied to concrete
models of each strategy — the spherical, k-nearest and ensemble fallbacks,
a defined wrapper call, and a defined ensemble call. -/
theorem C3_witness :
    ((0 : ℝ) ≤ 0 ∧ (0 : ℝ) ≤ 2) ∧ ((0 : ℝ) ≤ 0 ∧ (0 : ℝ) ≤ 1) ∧
    ((0 : ℝ) = 0) ∧ ((0 : ℝ) = 0) ∧ ((0 : ℝ) ≤ 1 ∧ (1 : ℝ) ≤ 1) := by
  refine ⟨?_, ?_, ?_, ?_, ?_⟩
  · exact C3_confidence_ranges.1 1 sphericalOneSense none "1" 0 rfl
  · exact C3_confidence_ranges.2.1 1 knnEx none "1" 0 rfl
  · exact C3_confidence_ranges.2.2.1 1 wrapEx (some vone) "None" 0 rfl
  · exact C3_confidence_ranges.2.2.2.1 1 dnnEx "1" 0 rfl
  · refine C3_confidence_ranges.2.2.2.2 1 dnnEx vone "1" 1 ?_ dnnEx_call
    intro f hf x hx
    simp only [dnnEx, List.mem_singleton] at hf
    rw [hf] at hx
    simp only [List.mem_singleton] at hx
    rw [hx]
    norm_num

/-- C4 (amended): every context vector returned as defined by the builder
either has L2 norm exactly 1 or is the all-zero vector; the all-zero case
arises when the weighted mean of the surviving embeddings is zero, because
`unitvec` returns a zero-norm input unchanged. -/
theorem C4_unit_norm_or_zero {n : ℕ} (w2v : String → Option (Vec n))
    (stopwords : List String) (words : List String) (excl : Bool)
    (weights : Option (List (String × ℝ))) (u : Vec n)
    (h : context_vector w2v stopwords words excl weights = some u) :
    norm2 u = 1 ∨ ∀ i, u i = 0 := by
  cases hv : words.filterMap (cvEntry w2v stopwords excl weights) with
  | nil => simp [context_vector, hv] at h
  | cons p ps =>
    simp only [context_vector, hv, Option.some.injEq] at h
    by_cases hpos : norm2 (vmean ((p :: ps).map fun q => smul q.2 q.1)) > 0
    · left
      rw [← h]
      exact norm2_unitvec_of_pos _ hpos
    · right
      have hid : unitvec (vmean ((p :: ps).map fun q => smul q.2 q.1)) =
          vmean ((p :: ps).map fun q => smul q.2 q.1) := if_neg hpos
      have hz : norm2 (vmean ((p :: ps).map fun q => smul q.2 q.1)) = 0 :=
        norm2_eq_zero_of_not_pos _ hpos
      have hsq := sumsq_eq_zero_of_norm2_eq_zero _ hz
      intro i
      rw [← h, hid]
      exact entries_eq_zero_of_sumsq_eq_zero _ hsq i

theorem norm2_zeroVec (n : ℕ) : norm2 (zeroVec n) = 0 := by
  simp [norm2, sumsq, zeroVec]

/-- The context-vector builder on the word `"a"` with table weight 0: every
surviving embedding is weighted by zero, so the returned vector is defined
but all-zero. -/
theorem context_vector_allzero :
    context_vector w2vA [] ["a"] true (some [("a", 0)]) = some (zeroVec 1) := by
  have hentry : cvEntry w2vA [] true (some [("a", (0 : ℝ))]) "a" =
      some (vone, 0) := by
    simp [cvEntry, w2vA, lookupWeight]
  have hfm : List.filterMap (cvEntry w2vA [] true (some [("a", (0 : ℝ))])) ["a"]
      = [(vone, 0)] := by
    rw [List.filterMap_cons, hentry]
    rfl
  have hM : vmean (([((vone : Vec 1), (0 : ℝ))]).map fun q => smul q.2 q.1) =
      zeroVec 1 := by
    funext i
    simp [vmean, vsum, vadd, smul, zeroVec]
  simp only [context_vector, hfm, hM, Option.some.injEq]
  rw [unitvec, norm2_zeroVec]
  simp

/-- C4 counterexample: with an embedding for `"a"` and a weighting table
mapping `"a"` to weight 0, the builder returns a defined context vector whose
norm is 0, not 1, refuting the unit-norm claim for all defined vectors. -/
theorem C4_counterexample :
    context_vector w2vA [] ["a"] true (some [("a", 0)]) = some (zeroVec 1) ∧
    norm2 (zeroVec 1) ≠ 1 := by
  refine ⟨context_vector_allzero, ?_⟩
  rw [norm2_zeroVec]
  norm_num

/-- C4 witness: the amended theorem applied to the concrete all-zero-weight
input. -/
theorem C4_witness :
    norm2 (zeroVec 1) = 1 ∨ zeroVec 1 (0 : Fin 1) = 0 :=
  (C4_unit_norm_or_zero w2vA [] ["a"] true (some [("a", 0)]) (zeroVec 1)
    context_vector_allzero).imp_right fun h => h 0

/-- The dimension-2 analogue of `context_vector_allzero`, on the word `"b"`
with table weight 0. -/
theorem context_vector_allzero2 :
    context_vector w2vB [] ["b"] true (some [("b", 0)]) = some (zeroVec 2) := by
  have hentry : cvEntry w2vB [] true (some [("b", (0 : ℝ))]) "b" =
      some (vone2, 0) := by
    simp [cvEntry, w2vB, lookupWeight]
  have hfm : List.filterMap (cvEntry w2vB [] true (some [("b", (0 : ℝ))])) ["b"]
      = [(vone2, 0)] := by
    rw [List.filterMap_cons, hentry]
    rfl
  have hM : vmean (([((vone2 : Vec 2), (0 : ℝ))]).map fun q => smul q.2 q.1) =
      zeroVec 2 := by
    funext i
    simp [vmean, vsum, vadd, smul, zeroVec]
  simp only [context_vector, hfm, hM, Option.some.injEq]
  rw [unitvec, norm2_zeroVec]
  simp

/-- C10 (confirmed): `unitvec` is total — it divides by the norm exactly when
the norm is positive and returns the input unchanged when the norm is zero
(the only other possibility, since the norm is never negative), so the
builder never divides by zero; and a defined all-zero (hence non-unit)
context vector is returned when every surviving embedding has weight 0. -/
theorem C10_unitvec_total :
    (∀ (n : ℕ) (v : Vec n), 0 ≤ norm2 v) ∧
    (∀ (n : ℕ) (v : Vec n), 0 < norm2 v →
      unitvec v = fun i => v i / norm2 v) ∧
    (∀ (n : ℕ) (v : Vec n), ¬ 0 < norm2 v → unitvec v = v) ∧
    (context_vector w2vB [] ["b"] true (some [("b", 0)]) = some (zeroVec 2) ∧
      sumsq (zeroVec 2) = 0) := by
  refine ⟨?_, ?_, ?_, context_vector_allzero2, ?_⟩
  · intro n v
    exact norm2_nonneg v
  · intro n v hpos
    exact if_pos hpos
  · intro n v hpos
    exact if_neg hpos
  · simp [sumsq, zeroVec]

/-- C10 witness: the totality theorem applied to a concrete unit vector (the
dividing branch) and to the concrete zero vector (the identity branch). -/
theorem C10_witness :
    (unitvec vone = fun i => vone i / norm2 vone) ∧
    unitvec (zeroVec 1) = zeroVec 1 := by
  constructor
  · refine C10_unitvec_total.2.1 1 vone ?_
    rw [norm2_vone]
    norm_num
  · refine C10_unitvec_total.2.2.1 1 (zeroVec 1) ?_
    rw [norm2_zeroVec]
    norm_num

/-- C6 (confirmed): on a defined query vector the k-nearest-neighbor model
ranks all training pairs by cosine similarity descending (the sorted list is
a sorted permutation of all pairs, truncated to the top `k`), returns a
sense of the top-`k` list whose neighbour count is maximal, such that any
count-tied sense has a mean similarity no larger than the winner's, and
always with confidence 1.0; as a pure function of the model and query it is
deterministic. -/
theorem C6_knn_classification {n : ℕ} (m : KNearestModel n) (v : Vec n)
    (m_ans : String) (conf : ℝ)
    (h : m.call (some v) = some (m_ans, conf)) :
    (List.insertionSort descSnd (knnPairs m v)).Perm (knnPairs m v) ∧
    (List.insertionSort descSnd (knnPairs m v)).Sorted descSnd ∧
    m_ans ∈ dedupFirst ((knnTop m v).map Prod.fst) ∧
    (∀ s ∈ dedupFirst ((knnTop m v).map Prod.fst),
      ansCount (knnTop m v) s ≤ ansCount (knnTop m v) m_ans) ∧
    (∀ s ∈ dedupFirst ((knnTop m v).map Prod.fst),
      ansCount (knnTop m v) s = ansCount (knnTop m v) m_ans →
      ansMean (knnTop m v) s ≤ ansMean (knnTop m v) m_ans) ∧
    conf = 1 := by
  cases hp1 : pymax (fun s => ansCount (knnTop m v) s)
      (dedupFirst ((knnTop m v).map Prod.fst)) with
  | none => simp [KNearestModel.call, hp1] at h
  | some a0 =>
    cases hp2 : pymax (fun s => ansMean (knnTop m v) s)
        ((dedupFirst ((knnTop m v).map Prod.fst)).filter
          fun s => ansCount (knnTop m v) s = ansCount (knnTop m v) a0) with
    | none => simp [KNearestModel.call, hp1, hp2] at h
    | some m' =>
      simp only [KNearestModel.call, hp1, hp2, Option.some.injEq,
        Prod.mk.injEq] at h
      obtain ⟨hm, hc⟩ := h
      have hmem2 := pymax_mem _ _ _ hp2
      have hmax2 := pymax_is_max _ _ _ hp2
      have hmax1 := pymax_is_max _ _ _ hp1
      rw [hm] at hmem2 hmax2
      have hfil := List.mem_filter.1 hmem2
      have hcnt : ansCount (knnTop m v) m_ans = ansCount (knnTop m v) a0 :=
        of_decide_eq_true hfil.2
      refine ⟨List.perm_insertionSort _ _, List.sorted_insertionSort _ _,
        hfil.1, ?_, ?_, hc.symm⟩
      · intro s hs
        have hle := hmax1 s hs
        rw [hcnt]
        exact hle
      · intro s hs hseq
        apply hmax2
        exact List.mem_filter.2 ⟨hs, decide_eq_true (hseq.trans hcnt)⟩

theorem knnEx_call : knnEx.call (some vone) = some ("1", 1) := by
  simp [KNearestModel.call, knnEx, knnTop, knnPairs, pymax, pyfoldMax,
    List.insertionSort, List.orderedInsert, dedupFirst, ansCount, ansMean]

/-- C6 witness: the k-nearest-neighbor theorem applied to a concrete trained
model and concrete defined query. -/
theorem C6_witness :
    "1" ∈ dedupFirst ((knnTop knnEx vone).map Prod.fst) ∧ (1 : ℝ) = 1 := by
  have h := C6_knn_classification knnEx vone "1" 1 knnEx_call
  exact ⟨h.2.2.1, h.2.2.2.2.2⟩

/-- Evaluation of the spec's concrete frequency-error scenario: max
frequency error `0.1` for true distribution `0.6/0.4` against predicted
`0.5/0.5` over a test set of size 10. -/
theorem scenario_mfe : maxFreqError scenarioTruth scenarioPreds = some (1 / 10) := by
  have hs : allSenses scenarioTruth scenarioPreds = ["1", "2"] := by
    simp [allSenses, scenarioTruth, scenarioPreds, dedupFirst]
  have h1 : get_freqs scenarioTruth "1" = 6 / 10 := by
    simp [get_freqs, scenarioTruth]
  have h2 : get_freqs scenarioTruth "2" = 4 / 10 := by
    simp [get_freqs, scenarioTruth]
  have h3 : get_freqs scenarioPreds "1" = 5 / 10 := by
    simp [get_freqs, scenarioPreds]
  have h4 : get_freqs scenarioPreds "2" = 5 / 10 := by
    simp [get_freqs, scenarioPreds]
  simp only [maxFreqError, hs, List.map_cons, List.map_nil, h1, h2, h3, h4]
  rw [show |(6 : ℚ) / 10 - 5 / 10| = 1 / 10 by
    rw [abs_of_nonneg] <;> norm_num]
  rw [show |(4 : ℚ) / 10 - 5 / 10| = 1 / 10 by
    rw [abs_of_nonpos] <;> norm_num]
  simp only [pymax, pyfoldMax, id_eq, ite_self]

/-- C5 (confirmed): for a non-empty test set the value computed by
`evaluate` as the max frequency error is exactly the maximum, over the union
of senses occurring among true or predicted labels, of the absolute
difference of their frequencies (fractions of the test-set size, 0 when a
sense is absent from one side): it is defined, it bounds every such
difference, and it is attained by some sense in the union; the component
stored in the `evaluate` result tuple is this value; and on the spec's
concrete scenario (size 10, true 0.6/0.4, predicted 0.5/0.5) it equals
0.1. -/
theorem C5_max_freq_error :
    (∀ truth preds : List String, truth ≠ [] →
      (maxFreqError truth preds).isSome ∧
      (∀ s, s ∈ truth ∨ s ∈ preds →
        |get_freqs truth s - get_freqs preds s| ≤
          (maxFreqError truth preds).getD 0) ∧
      (∃ s, (s ∈ truth ∨ s ∈ preds) ∧
        (maxFreqError truth preds).getD 0 =
          |get_freqs truth s - get_freqs preds s|)) ∧
    (∀ (α : Type) (model : α → Option (String × ℝ)) (th : ℝ)
      (test : List (α × String)) (r : ℚ × ℚ × ℝ × ℚ × List (α × String × String)),
      evaluate model th test = some r →
      maxFreqError (test.map Prod.snd) (r.2.2.2.2.map fun t => t.2.2) =
        some r.2.1) ∧
    maxFreqError scenarioTruth scenarioPreds = some (1 / 10) := by
  refine ⟨?_, ?_, scenario_mfe⟩
  · intro truth preds hne
    have hnn : allSenses truth preds ≠ [] := by
      intro hc
      have h0 := (dedupFirst_eq_nil_iff _).1 hc
      rcases List.append_eq_nil.1 h0 with ⟨h1, _⟩
      exact hne h1
    have hmapne : ((allSenses truth preds).map
        fun s => |get_freqs truth s - get_freqs preds s|) ≠ [] := by
      simpa using hnn
    obtain ⟨M, hM⟩ := pymax_isSome id _ hmapne
    have hunf : maxFreqError truth preds = some M := hM
    refine ⟨by rw [hunf]; rfl, ?_, ?_⟩
    · intro s hs
      have hsin : s ∈ allSenses truth preds :=
        (mem_dedupFirst _ _).2 (List.mem_append.2 hs)
      have hin : |get_freqs truth s - get_freqs preds s| ∈
          (allSenses truth preds).map
            fun s => |get_freqs truth s - get_freqs preds s| :=
        List.mem_map.2 ⟨s, hsin, rfl⟩
      have hle := pymax_is_max id _ M hM _ hin
      rw [hunf]
      simpa using hle
    · have hmm := pymax_mem id _ M hM
      obtain ⟨s, hsin, hse⟩ := List.mem_map.1 hmm
      refine ⟨s, List.mem_append.1 ((mem_dedupFirst _ _).1 hsin), ?_⟩
      rw [hunf]
      simp [← hse]
  · intro α model th test r h
    cases hc : collectResults model test with
    | none => simp [evaluate, hc] at h
    | some results =>
      cases he : get_accuracy_estimate (results.map fun t => t.2.2.2) th with
      | none => simp [evaluate, hc, he] at h
      | some estimate =>
        cases hm : maxFreqError (test.map Prod.snd)
            (results.map fun t => t.2.2.1) with
        | none => simp [evaluate, hc, he, hm] at h
        | some mfe =>
          cases hre : results with
          | nil =>
            subst hre
            simp only [List.map_nil] at he hm
            simp [evaluate, hc, he, hm] at h
          | cons a as =>
            subst hre
            simp only [evaluate, hc, he, hm, Option.some.injEq] at h
            rw [← h]
            simp only [List.map_map]
            exact hm

/-- Evaluating the harness on a concrete one-example test set with a
concrete always-right model. -/
theorem evaluate_concrete :
    evaluate evalModelEx 0 evalTestEx =
      some (1, 0, jensen_shannon_divergence [(1 : ℝ)] [(1 : ℝ)], 1,
        [((0 : ℕ), "1", "1")]) := by
  norm_num [evaluate, collectResults, evalModelEx, evalTestEx,
    get_accuracy_estimate, maxFreqError, allSenses, dedupFirst, get_freqs,
    pymax, pyfoldMax, List.filter_cons, decide_eq_true_eq]

/-- C5 witness: the theorem applied to concrete label lists and a concrete
evaluation run. -/
theorem C5_witness :
    (maxFreqError ["1"] ["1"]).isSome ∧
    maxFreqError (evalTestEx.map Prod.snd)
      ([((0 : ℕ), "1", "1")].map fun t => t.2.2) = some 0 := by
  constructor
  · exact (C5_max_freq_error.1 ["1"] ["1"] (by simp)).1
  · have h := C5_max_freq_error.2.1 ℕ evalModelEx 0 evalTestEx _
      evaluate_concrete
    simpa using h

theorem maxFreqError_isSome (truth preds : List String) (hne : truth ≠ []) :
    ∃ M, maxFreqError truth preds = some M := by
  have hnn : allSenses truth preds ≠ [] := by
    intro hc
    rcases List.append_eq_nil.1 ((dedupFirst_eq_nil_iff _).1 hc) with ⟨h1, _⟩
    exact hne h1
  have hmapne : ((allSenses truth preds).map
      fun s => |get_freqs truth s - get_freqs preds s|) ≠ [] := by
    simpa using hnn
  exact pymax_isSome id _ hmapne

theorem collectResults_some {α : Type} (model : α → Option (String × ℝ)) :
    ∀ test : List (α × String), (∀ p ∈ test, (model p.1).isSome) →
      ∃ results, collectResults model test = some results ∧
        results.length = test.length := by
  intro test
  induction test with
  | nil => intro _; exact ⟨[], rfl, rfl⟩
  | cons p ps ih =>
    intro hall
    obtain ⟨r, hr⟩ := Option.isSome_iff_exists.1 (hall p (List.mem_cons_self _ _))
    obtain ⟨results, hcr, hlen⟩ := ih fun q hq => hall q (List.mem_cons_of_mem _ hq)
    refine ⟨(p.1, p.2, r.1, r.2) :: results, ?_, by simp [hlen]⟩
    simp [collectResults, hr, hcr]

/-- C9 (confirmed): `get_accuracy_estimate` and `evaluate` divide by the
number of confidences (respectively test examples) with no emptiness guard:
on an empty test set both fail (`none`, the `ZeroDivisionError` /
`ValueError`), and on a non-empty test set whose model calls all succeed
both produce a result. -/
theorem C9_nonempty_precondition :
    (∀ th : ℝ, get_accuracy_estimate [] th = none) ∧
    (∀ (cs : List ℝ) (th : ℝ), cs ≠ [] → (get_accuracy_estimate cs th).isSome) ∧
    (∀ (α : Type) (model : α → Option (String × ℝ)) (th : ℝ),
      evaluate model th ([] : List (α × String)) = none) ∧
    (∀ (α : Type) (model : α → Option (String × ℝ)) (th : ℝ)
      (test : List (α × String)), test ≠ [] →
      (∀ p ∈ test, (model p.1).isSome) → (evaluate model th test).isSome) := by
  refine ⟨fun _ => rfl, ?_, fun _ _ _ => rfl, ?_⟩
  · intro cs th hne
    cases cs with
    | nil => exact absurd rfl hne
    | cons c cs' => simp [get_accuracy_estimate]
  · intro α model th test hne hall
    obtain ⟨results, hc, hlen⟩ := collectResults_some model test hall
    cases test with
    | nil => exact absurd rfl hne
    | cons t ts =>
      cases results with
      | nil => simp at hlen
      | cons r rs =>
        obtain ⟨M, hM⟩ := maxFreqError_isSome (t.2 :: ts.map Prod.snd)
          (r.2.2.1 :: rs.map fun x => x.2.2.1) (by simp)
        simp [evaluate, hc, get_accuracy_estimate, hM]

/-- C9 witness: the precondition theorem applied to concrete empty and
non-empty inputs. -/
theorem C9_witness :
    get_accuracy_estimate ([] : List ℝ) 0 = none ∧
    (get_accuracy_estimate [(1 : ℝ)] 0).isSome ∧
    evaluate evalModel9 0 ([] : List (ℕ × String)) = none ∧
    (evaluate evalModel9 0 evalTest9).isSome := by
  refine ⟨C9_nonempty_precondition.1 0,
    C9_nonempty_precondition.2.1 [(1 : ℝ)] 0 (by simp),
    C9_nonempty_precondition.2.2.1 ℕ evalModel9 0,
    C9_nonempty_precondition.2.2.2 ℕ evalModel9 0 evalTest9
      (by simp [evalTest9]) ?_⟩
  intro p hp
  simp [evalModel9]

/-- C7 (confirmed): every `(word, weight)` pair emitted by the
weighting-table builder satisfies: the word's local count is at least the
minimum threshold, its global count is known, the weight equals
`max(0, log(local / (global * (contexts_count / total_count))))`, and hence
the weight is non-negative; and during vector building a word absent from
the weighting table (or with no table configured) receives default weight
1.0. -/
theorem C7_weights :
    (∀ (lines : List (List String)) (gcs : String → Option ℕ) (total : ℕ)
      (w : String) (weight : ℝ), (w, weight) ∈ write_cdict lines gcs total →
      min_count ≤ localCount lines w ∧ (gcs w).isSome ∧
      weight = max 0 (Real.log ((localCount lines w : ℝ) /
        (((gcs w).getD 0 : ℝ) * ((tokenCount lines : ℝ) / (total : ℝ))))) ∧
      0 ≤ weight) ∧
    (∀ (n : ℕ) (w2v : String → Option (Vec n)) (stop : List String)
      (tbl : List (String × ℝ)) (w : String) (v : Vec n),
      tbl.lookup w = none → w2v w = some v → w ∉ stop →
      cvEntry w2v stop true (some tbl) w = some (v, 1)) ∧
    (∀ w : String, lookupWeight none w = 1) := by
  refine ⟨?_, ?_, fun _ => rfl⟩
  · intro lines gcs total w weight hmem
    obtain ⟨t, ht, hte⟩ := List.mem_map.1 hmem
    have htc := (List.perm_insertionSort descCnt _).mem_iff.1 ht
    obtain ⟨w', hw', hsome⟩ := List.mem_filterMap.1 htc
    cases hg : gcs w' with
    | none => simp [hg] at hsome
    | some gc =>
      simp only [hg] at hsome
      by_cases hc : localCount lines w' ≥ min_count
      · rw [if_pos hc] at hsome
        have hteq : t = (w', localCount lines w', gc) :=
          (Option.some_inj.1 hsome).symm
        simp only [Prod.mk.injEq] at hte
        have hw'w : w' = w := by rw [hteq] at hte; exact hte.1
        subst hw'w
        refine ⟨hc, by rw [hg]; rfl, ?_, ?_⟩
        · rw [← hte.2, hteq, hg]
          rfl
        · rw [← hte.2]
          exact le_max_left _ _
      · rw [if_neg hc] at hsome
        simp at hsome
  · intro n w2v stop tbl w v h1 h2 h3
    simp [cvEntry, h2, lookupWeight, h1, h3]

theorem write_cdict_concrete :
    write_cdict linesEx gcsEx 4 =
      [("a", max 0 (Real.log ((4 : ℝ) / ((4 : ℝ) * ((4 : ℝ) / (4 : ℝ))))))] := by
  simp [write_cdict, linesEx, gcsEx, uniqLines, dedupFirst, localCount,
    tokenCount, min_count, List.insertionSort, List.orderedInsert]

/-- C7 witness: the theorem applied to a concrete corpus (the word `"a"`
occurring four times), concrete global counts, and a concrete table-miss
during vector building. -/
theorem C7_witness :
    min_count ≤ localCount linesEx "a" ∧ (gcsEx "a").isSome ∧
    cvEntry w2vA [] true (some [("c", (2 : ℝ))]) "a" = some (vone, 1) ∧
    lookupWeight none "z" = 1 := by
  have hmem : ("a", max 0 (Real.log ((4 : ℝ) / ((4 : ℝ) * ((4 : ℝ) / (4 : ℝ))))))
      ∈ write_cdict linesEx gcsEx 4 := by
    rw [write_cdict_concrete]
    exact List.mem_singleton_self _
  have h1 := C7_weights.1 linesEx gcsEx 4 "a" _ hmem
  refine ⟨h1.1, h1.2.1, ?_, C7_weights.2.2 "z"⟩
  refine C7_weights.2.1 1 w2vA [] [("c", 2)] "a" vone ?_ ?_ ?_
  · simp [List.lookup]
  · simp [w2vA]
  · simp

theorem not_mem_map_fst_filter (l : List (String × String)) (k : String) :
    k ∉ (l.filter fun p => p.1 ≠ k).map Prod.fst := by
  intro hmem
  obtain ⟨p, hp, hpe⟩ := List.mem_map.1 hmem
  have := (List.mem_filter.1 hp).2
  rw [hpe] at this
  simp at this

theorem headers_phase :
    ∀ (hs : List (String × String)) (acc : List (String × String))
      (o : Option String) (wd : List ((String × String × String) × String)),
      (∀ p ∈ hs, p.2 ≠ "0") →
      (∀ p ∈ hs, p.2 ∉ acc.map Prod.fst) →
      (hs.map Prod.snd).Nodup →
      (hs.map fun p => Row.header p.1 p.2 none).foldlM parseStep
        ⟨acc, o, wd⟩ = some ⟨acc ++ hs.map (fun p => (p.2, p.1)), o, wd⟩ := by
  intro hs
  induction hs with
  | nil =>
    intro acc o wd _ _ _
    rw [show acc ++ ([] : List (String × String)).map (fun p => (p.2, p.1)) = acc
      from by simp]
    rfl
  | cons p ps ih =>
    intro acc o wd h0 hfresh hnd
    have hne0 : p.2 ≠ "0" := h0 p (List.mem_cons_self _ _)
    have hnotin : p.2 ∉ acc.map Prod.fst := hfresh p (List.mem_cons_self _ _)
    have hup : upsert acc p.2 p.1 = acc ++ [(p.2, p.1)] := by
      rw [upsert, if_neg hnotin]
    have hstep : parseStep ⟨acc, o, wd⟩ (Row.header p.1 p.2 none) =
        some ⟨acc ++ [(p.2, p.1)], o, wd⟩ := by
      simp only [parseStep, if_pos hne0, hup]
    rw [List.map_cons, List.foldlM_cons, hstep]
    have hnd' : (ps.map Prod.snd).Nodup := by
      rw [List.map_cons] at hnd
      exact hnd.of_cons
    have hp2 : p.2 ∉ ps.map Prod.snd := by
      rw [List.map_cons] at hnd
      exact (List.nodup_cons.1 hnd).1
    have hfresh' : ∀ q ∈ ps, q.2 ∉ (acc ++ [(p.2, p.1)]).map Prod.fst := by
      intro q hq hmem
      rw [List.map_append] at hmem
      rcases List.mem_append.1 hmem with hmem | hmem
      · exact hfresh q (List.mem_cons_of_mem _ hq) hmem
      · simp only [List.map_cons, List.map_nil, List.mem_singleton] at hmem
        exact hp2 (hmem ▸ List.mem_map.2 ⟨q, hq, rfl⟩)
    have := ih (acc ++ [(p.2, p.1)]) o wd
      (fun q hq => h0 q (List.mem_cons_of_mem _ hq)) hfresh' hnd'
    show (ps.map fun p => Row.header p.1 p.2 none).foldlM parseStep
        ⟨acc ++ [(p.2, p.1)], o, wd⟩ =
      some ⟨acc ++ (p :: ps).map (fun p => (p.2, p.1)), o, wd⟩
    rw [this]
    simp [List.append_assoc]

theorem parseStep_data_some (S : List (String × String)) (o : String)
    (wd : List ((String × String × String) × String))
    (b w a ans1 : String) (ans2 : Option String) :
    parseStep ⟨S, some o, wd⟩ (Row.data b w a ans1 ans2) =
      some ⟨S, some o,
        wd ++ (keepData o (Row.data b w a ans1 ans2)).toList⟩ := by
  simp only [parseStep, keepData]
  cases ans2 with
  | none =>
    by_cases hk : ans1 ≠ "0" ∧ ans1 ≠ o
    · simp [hk]
    · simp [hk]
  | some a2 =>
    by_cases ha : ans1 = a2
    · subst ha
      by_cases hk : ans1 ≠ "0" ∧ ans1 ≠ o
      · simp [hk]
      · simp [hk]
    · simp [ha]

theorem parseStep_data_none (S : List (String × String))
    (wd : List ((String × String × String) × String))
    (b w a ans1 : String) (ans2 : Option String)
    (hmem : toString S.length ∈ S.map Prod.fst) :
    parseStep ⟨S, none, wd⟩ (Row.data b w a ans1 ans2) =
      parseStep ⟨S.filter (fun p => p.1 ≠ toString S.length),
        some (toString S.length), wd⟩ (Row.data b w a ans1 ans2) := by
  simp only [parseStep, delKey, if_pos hmem]

theorem data_phase :
    ∀ (ds : List Row) (S : List (String × String)) (o : String)
      (wd : List ((String × String × String) × String)),
      (∀ r ∈ ds, isDataRow r = true) →
      ds.foldlM parseStep ⟨S, some o, wd⟩ =
        some ⟨S, some o, wd ++ ds.filterMap (keepData o)⟩ := by
  intro ds
  induction ds with
  | nil =>
    intro S o wd _
    rw [List.filterMap_nil, List.append_nil]
    rfl
  | cons r rs ih =>
    intro S o wd hall
    cases r with
    | header m a a2 =>
      have := hall _ (List.mem_cons_self _ _)
      simp [isDataRow] at this
    | data b w a ans1 ans2 =>
      rw [List.foldlM_cons, parseStep_data_some]
      show rs.foldlM parseStep
          ⟨S, some o, wd ++ (keepData o (Row.data b w a ans1 ans2)).toList⟩ =
        some ⟨S, some o,
          wd ++ (Row.data b w a ans1 ans2 :: rs).filterMap (keepData o)⟩
      rw [ih S o _ fun q hq => hall q (List.mem_cons_of_mem _ hq)]
      rw [List.filterMap_cons]
      cases hkd : keepData o (Row.data b w a ans1 ans2) with
      | none => simp
      | some e => simp

theorem keepData_labels (o : String) (r : Row)
    (e : (String × String × String) × String) (h : keepData o r = some e) :
    e.2 ≠ "0" ∧ e.2 ≠ o := by
  cases r with
  | header m a a2 => simp [keepData] at h
  | data b w a ans1 ans2 =>
    simp only [keepData] at h
    split at h
    · exact absurd h (by simp)
    · split at h
      · rename_i ans heq hcond
        have he := Option.some_inj.1 h
        rw [← he]
        exact hcond
      · exact absurd h (by simp)

/-- C8 (confirmed): for a labeled-data file whose header defines senses
`"1" .. "n"` (with `"0"` skipped) followed by data rows, the parser, on
reaching the first data row, sets the reserved "other" id to the string
form of the number of senses read — `"n"` — and deletes that key, so sense
`"n"` is absent from the returned inventory; and the returned examples are
exactly the data rows that survive the filter, excluding every row labeled
`"n"`, labeled `"0"`, or with disagreeing annotator labels. -/
theorem C8_other_sense (n : ℕ) (meanings : ℕ → String) (ds : List Row)
    (hn : 1 ≤ n)
    (hnd : ((List.range n).map fun i => toString (i + 1)).Nodup)
    (h0 : ∀ i ∈ List.range n, toString (i + 1) ≠ "0")
    (hds : ∀ r ∈ ds, isDataRow r = true) (hdne : ds ≠ []) :
    ∃ senses w_d,
      get_labeled_ctx (headerRows n meanings ++ ds) = some (senses, w_d) ∧
      toString n ∉ senses.map Prod.fst ∧
      w_d = ds.filterMap (keepData (toString n)) ∧
      ∀ e ∈ w_d, e.2 ≠ "0" ∧ e.2 ≠ toString n := by
  have hrw : (((List.range n).map fun i =>
      (meanings (i + 1), toString (i + 1))).map
        fun p => Row.header p.1 p.2 none) = headerRows n meanings := by
    rw [List.map_map]
    rfl
  have hkeys : ((((List.range n).map fun i =>
      (meanings (i + 1), toString (i + 1)))).map Prod.snd) =
      (List.range n).map fun i => toString (i + 1) := by
    rw [List.map_map]
    rfl
  have h0' : ∀ p ∈ (List.range n).map fun i =>
      (meanings (i + 1), toString (i + 1)), p.2 ≠ "0" := by
    intro p hp
    obtain ⟨i, hi, rfl⟩ := List.mem_map.1 hp
    exact h0 i hi
  have hnd' : (((List.range n).map fun i =>
      (meanings (i + 1), toString (i + 1))).map Prod.snd).Nodup := by
    rw [hkeys]
    exact hnd
  have hH := headers_phase ((List.range n).map fun i =>
      (meanings (i + 1), toString (i + 1))) [] none [] h0'
    (by intro p hp hmem; simp at hmem) hnd'
  rw [hrw] at hH
  simp only [List.nil_append] at hH
  set S : List (String × String) := ((List.range n).map fun i =>
    (meanings (i + 1), toString (i + 1))).map (fun p => (p.2, p.1)) with hS
  have hSfst : S.map Prod.fst = (List.range n).map fun i => toString (i + 1) := by
    rw [hS, List.map_map, List.map_map]
    rfl
  have hSlen : S.length = n := by
    rw [hS]
    simp
  have hmemn : toString n ∈ S.map Prod.fst := by
    rw [hSfst]
    refine List.mem_map.2 ⟨n - 1, List.mem_range.2 (by omega), ?_⟩
    congr 1
    omega
  cases ds with
  | nil => exact absurd rfl hdne
  | cons d ds' =>
    cases d with
    | header m a a2 =>
      have := hds _ (List.mem_cons_self _ _)
      simp [isDataRow] at this
    | data b w a ans1 ans2 =>
      have htrans := parseStep_data_none S [] b w a ans1 ans2
        (by rw [hSlen]; exact hmemn)
      rw [hSlen] at htrans
      have hstep := parseStep_data_some
        (S.filter fun p => p.1 ≠ toString n) (toString n) [] b w a ans1 ans2
      simp only [List.nil_append] at hstep
      have hds' : ∀ r ∈ ds', isDataRow r = true :=
        fun r hr => hds r (List.mem_cons_of_mem _ hr)
      have hfold := data_phase ds' (S.filter fun p => p.1 ≠ toString n)
        (toString n)
        ((keepData (toString n) (Row.data b w a ans1 ans2)).toList) hds'
      have hwd : (keepData (toString n) (Row.data b w a ans1 ans2)).toList ++
          ds'.filterMap (keepData (toString n)) =
          (Row.data b w a ans1 ans2 :: ds').filterMap
            (keepData (toString n)) := by
        rw [List.filterMap_cons]
        cases keepData (toString n) (Row.data b w a ans1 ans2) <;> simp
      have hfull : (headerRows n meanings ++
          (Row.data b w a ans1 ans2 :: ds')).foldlM parseStep ⟨[], none, []⟩ =
          some ⟨S.filter fun p => p.1 ≠ toString n, some (toString n),
            (keepData (toString n) (Row.data b w a ans1 ans2)).toList ++
              ds'.filterMap (keepData (toString n))⟩ := by
        rw [List.foldlM_append, hH]
        show (Row.data b w a ans1 ans2 :: ds').foldlM parseStep
          ⟨S, none, []⟩ = _
        rw [List.foldlM_cons, htrans, hstep]
        show ds'.foldlM parseStep
          ⟨S.filter fun p => p.1 ≠ toString n, some (toString n),
            (keepData (toString n) (Row.data b w a ans1 ans2)).toList⟩ = _
        exact hfold
      refine ⟨S.filter fun p => p.1 ≠ toString n,
        (keepData (toString n) (Row.data b w a ans1 ans2)).toList ++
          ds'.filterMap (keepData (toString n)), ?_, ?_, hwd, ?_⟩
      · simp only [get_labeled_ctx, hfull]
      · exact not_mem_map_fst_filter S (toString n)
      · intro e he
        rw [hwd] at he
        obtain ⟨r, hr, hkr⟩ := List.mem_filterMap.1 he
        exact keepData_labels _ r e hkr

/-- C8 witness: the parser theorem applied to a concrete file with two
header senses and four data rows (one kept, one labeled with the reserved
"other" sense, one undefined, one with disagreeing annotators). -/
theorem C8_witness :
    (get_labeled_ctx (headerRows 2 meaningsEx ++ dsEx)).isSome = true := by
  obtain ⟨s, wd, h, _⟩ := C8_other_sense 2 meaningsEx dsEx (by norm_num)
    (by decide) (by decide) (by decide) (by simp [dsEx])
  rw [h]
  rfl

end Sensefreq

